import Mathlib

/-!
Shallow embedding of the `mshammas/familytree` repository
(`tree_manager.py` and `gui_manager.py`).

The persistent store is a Neo4j graph holding `Person` nodes (keyed by the
`id` property), `CHILD_OF` / `SPOUSE_OF` edges, and a singleton `Schema`
node with `keys` / `mandatory_keys` list properties.  We model it as a
`Graph` record: persons as an association list from id to property map,
edges as a list of directed typed edges (Neo4j `MERGE` gives set
semantics, modelled by membership checks before appending), and the two
schema lists as fields.  Property values are strings or integers
(`timestamp()` and `genNumber` are numeric, everything else is a string).
-/

set_option autoImplicit false

namespace FamilyTree

/-- A Neo4j property value: string or integer. -/
inductive Val where
  | str : String → Val
  | int : Int → Val
deriving DecidableEq, Repr

/-- A node's property map (Python dict / Neo4j map). -/
abbrev PropMap := List (String × Val)

/-- First-match lookup in an association list (dict access). -/
def aget {α : Type} : List (String × α) → String → Option α
  | [], _ => none
  | (k', v) :: rest, k => if k' = k then some v else aget rest k

/-- In-place update of an association list: replace the value at the key if
present, otherwise append the binding (dict assignment / `SET p.key = v`). -/
def aset {α : Type} : List (String × α) → String → α → List (String × α)
  | [], k, v => [(k, v)]
  | (k', v') :: rest, k, v =>
      if k' = k then (k', v) :: rest else (k', v') :: aset rest k v

/-- Neo4j `SET p += $updates`: set every binding of `updates` on `pm`. -/
def setAll (pm : PropMap) (updates : PropMap) : PropMap :=
  updates.foldl (fun acc kv => aset acc kv.1 kv.2) pm

/-- Neo4j `REMOVE p.k`: drop the key from the property map. -/
def removeProp (pm : PropMap) (k : String) : PropMap :=
  pm.filter (fun kv => kv.1 ≠ k)

/-- The two relationship labels the application uses. -/
inductive RelType where
  | CHILD_OF : RelType
  | SPOUSE_OF : RelType
deriving DecidableEq, Repr

/-- A directed edge of the graph (Neo4j relationships are stored directed;
`SPOUSE_OF` is merely queried in an undirected way). -/
structure Edge where
  src : String
  dst : String
  rel : RelType
deriving DecidableEq, Repr

/-- The whole persistent state: `Person` nodes keyed by id, relationship
edges, and the singleton `Schema` node's two list properties. -/
structure Graph where
  persons : List (String × PropMap)
  edges : List Edge
  schemaKeys : List String
  schemaMandatory : List String
deriving DecidableEq, Repr

/-- Embeds `MANAGED_PROPERTIES` from `tree_manager.py`. -/
def MANAGED_PROPERTIES : List String := ["id", "created_at"]

/-- Embeds `DEFAULT_KEYS` from `tree_manager.py`. -/
def DEFAULT_KEYS : List String := ["firstName", "lastName", "gender", "dob", "dod"]

/-- Embeds `DEFAULT_MANDATORY_KEYS` from `tree_manager.py`. -/
def DEFAULT_MANDATORY_KEYS : List String := ["firstName", "lastName", "gender", "dob"]

/-- State right after `_ensure_schema_node_exists` on a fresh database:
no persons, no edges, the default schema lists. -/
def initGraph : Graph :=
  { persons := [], edges := [], schemaKeys := DEFAULT_KEYS,
    schemaMandatory := DEFAULT_MANDATORY_KEYS }

/-- Python `str.upper()` (ASCII case mapping suffices for the inputs used):
uppercase every character of the string. -/
def pyUpper (s : String) : String := String.mk (s.data.map Char.toUpper)

/-! ### `FamilyTreeManager` (CLI back end, `tree_manager.py`) -/

/-- Embeds `add_person`: `MERGE (p:Person {id: $person_id}) ON CREATE SET
p.created_at = timestamp() SET p += $properties`.  `now` is the value
`timestamp()` returns during the call. -/
def add_person (g : Graph) (personId : String) (properties : PropMap)
    (now : Int) : Graph :=
  match aget g.persons personId with
  | some pm =>
      { g with persons := aset g.persons personId (setAll pm properties) }
  | none =>
      { g with persons := g.persons ++
          [(personId,
            setAll [("id", Val.str personId), ("created_at", Val.int now)]
              properties)] }

/-- Embeds `find_person`: `MATCH (p:Person {id: $person_id}) RETURN p`. -/
def find_person (g : Graph) (personId : String) : Option PropMap :=
  aget g.persons personId

/-- Embeds `MERGE (a)-[:REL]->(b)` between two already-matched nodes: append the
directed edge unless it already exists. -/
def mergeEdge (g : Graph) (e : Edge) : Graph :=
  if e ∈ g.edges then g else { g with edges := g.edges ++ [e] }

/-- Relationship label recognised by `add_relationship`'s `valid_rels`
check, from the already-uppercased string. -/
def relOf (s : String) : Option RelType :=
  if s = "CHILD_OF" then some RelType.CHILD_OF
  else if s = "SPOUSE_OF" then some RelType.SPOUSE_OF
  else none

/-- Embeds `add_relationship(id1, id2, rel_type)`: reject (print an error, create
nothing) unless `rel_type.upper()` is `CHILD_OF` or `SPOUSE_OF`; otherwise
`MATCH (a {id:$id1}), (b {id:$id2}) MERGE (a)-[:REL]->(b)` — a directed
merge that runs only when both persons exist.  The boolean is `false`
exactly when the validation error was reported. -/
def add_relationship (g : Graph) (id1 id2 relType : String) :
    Graph × Bool :=
  match relOf (pyUpper relType) with
  | none => (g, false)
  | some r =>
      if (aget g.persons id1).isSome ∧ (aget g.persons id2).isSome then
        (mergeEdge g { src := id1, dst := id2, rel := r }, true)
      else (g, true)

/-- How one edge matches the undirected pattern
`(p {id: pid})-[:SPOUSE_OF]-(s)`: the other endpoint, if the edge is a
`SPOUSE_OF` edge incident to `pid`. -/
def spouseCandidate (pid : String) (e : Edge) : Option String :=
  if e.rel = RelType.SPOUSE_OF then
    if e.src = pid then some e.dst
    else if e.dst = pid then some e.src
    else none
  else none

/-- How one edge matches the pattern `(p {id: pid})-[:CHILD_OF]->(parent)`:
the parent endpoint, if the edge is an outgoing `CHILD_OF` edge of `pid`. -/
def parentCandidate (pid : String) (e : Edge) : Option String :=
  if e.rel = RelType.CHILD_OF ∧ e.src = pid then some e.dst else none

/-- The spouse partners of `pid`, one per `SPOUSE_OF` edge incident to it
in either direction (`MATCH (p {id:$id})-[:SPOUSE_OF]-(s:Person) RETURN
s.id`); empty when `pid` does not exist. -/
def spousePartnerIds (g : Graph) (pid : String) : List String :=
  if (aget g.persons pid).isSome then
    (g.edges.filterMap (spouseCandidate pid)).filter
      (fun s => (aget g.persons s).isSome)
  else []

/-- The parent ids of `pid`, one per outgoing `CHILD_OF` edge whose target
exists (`MATCH (p {id:$id})-[:CHILD_OF]->(parent:Person) RETURN
parent.id`); empty when `pid` does not exist. -/
def parentIdsOf (g : Graph) (pid : String) : List String :=
  if (aget g.persons pid).isSome then
    (g.edges.filterMap (parentCandidate pid)).filter
      (fun s => (aget g.persons s).isSome)
  else []

/-- All `CHILD_OF` edges going out of `cid` (the edges recorded for a child
towards its parents). -/
def childEdgesFrom (g : Graph) (cid : String) : List Edge :=
  g.edges.filter (fun e => e.src = cid ∧ e.rel = RelType.CHILD_OF)

/-- Whether an edge is a `SPOUSE_OF` edge between `a` and `b`, in either
direction. -/
def spouseBetween (a b : String) (e : Edge) : Bool :=
  e.rel = RelType.SPOUSE_OF ∧
    ((e.src = a ∧ e.dst = b) ∨ (e.src = b ∧ e.dst = a))

/-- Embeds `find_relatives(person_id, "-[:SPOUSE_OF]-")`: the relative nodes, one
per matching edge. -/
def find_relatives_spouse (g : Graph) (pid : String) : List PropMap :=
  (spousePartnerIds g pid).filterMap (fun s => aget g.persons s)

/-- Embeds `add_property_key(key, is_mandatory, default_value)` on the manager:
append to `s.keys` when absent, to `s.mandatory_keys` when mandatory and
absent, then `MATCH (p:Person) SET p.key = $default_value` on every node. -/
def add_property_key (g : Graph) (key : String) (isMandatory : Bool)
    (defaultValue : Val) : Graph :=
  let keys := if key ∈ g.schemaKeys then g.schemaKeys
              else g.schemaKeys ++ [key]
  let mand := if isMandatory then
                (if key ∈ g.schemaMandatory then g.schemaMandatory
                 else g.schemaMandatory ++ [key])
              else g.schemaMandatory
  { g with schemaKeys := keys, schemaMandatory := mand,
           persons := g.persons.map (fun p => (p.1, aset p.2 key defaultValue)) }

/-- The `config_menu` option `1` wrapper around `add_property_key`: a
managed name (`id` / `created_at`) is rejected with an error message before
the manager is called.  The boolean is `false` exactly on rejection. -/
def addKeyConfig (g : Graph) (key : String) (isMandatory : Bool)
    (defaultValue : Val) : Graph × Bool :=
  if key ∈ MANAGED_PROPERTIES then (g, false)
  else (add_property_key g key isMandatory defaultValue, true)

/-- The per-node update of `rename_property_key`: `MATCH (p:Person) WHERE
p.old IS NOT NULL SET p.new = p.old REMOVE p.old`. -/
def renameNodeProp (oldKey newKey : String) (pm : PropMap) : PropMap :=
  match aget pm oldKey with
  | some v => removeProp (aset pm newKey v) oldKey
  | none => pm

/-- Embeds `rename_property_key(old_key, new_key)`: substitute `old_key` by
`new_key` in `s.keys` (when present) and in `s.mandatory_keys` (when
present), then move the property value on every node that has `old_key`.
No reserved-name or duplicate check is performed. -/
def rename_property_key (g : Graph) (oldKey newKey : String) : Graph :=
  let keys := if oldKey ∈ g.schemaKeys then
                g.schemaKeys.map (fun k => if k = oldKey then newKey else k)
              else g.schemaKeys
  let mand := if oldKey ∈ g.schemaMandatory then
                g.schemaMandatory.map (fun k => if k = oldKey then newKey else k)
              else g.schemaMandatory
  { g with schemaKeys := keys, schemaMandatory := mand,
           persons := g.persons.map (fun p => (p.1, renameNodeProp oldKey newKey p.2)) }

/-- Embeds `delete_property_key(key)`: filter the key out of both schema lists and
`REMOVE p.key` on every node. -/
def delete_property_key (g : Graph) (key : String) : Graph :=
  { g with schemaKeys := g.schemaKeys.filter (fun k => k ≠ key),
           schemaMandatory := g.schemaMandatory.filter (fun k => k ≠ key),
           persons := g.persons.map (fun p => (p.1, removeProp p.2 key)) }

/-! ### `FamilyTreeApp` composite operations (GUI back end, `gui_manager.py`) -/

/-- Python truthiness of a property value (`if v` in the dict filters). -/
def truthy : Val → Bool
  | Val.str s => s ≠ ""
  | Val.int n => n ≠ 0

/-- Embeds `open_person_form`'s filter of the dialog result before `CREATE`:
`{k: v for k, v in dialog.result.items() if v and k != 'id'}`. -/
def formFilter (result : PropMap) : PropMap :=
  result.filter (fun kv => truthy kv.2 ∧ kv.1 ≠ "id")

/-- Embeds `CREATE (p:Person {id: $id}) SET p += $props`: unconditionally create a
fresh node (the application relies on the id being new). -/
def createPerson (g : Graph) (newId : String) (props : PropMap) : Graph :=
  { g with persons := g.persons ++
      [(newId, setAll [("id", Val.str newId)] props)] }

/-- The `relationship_type == "child"` branch of `open_person_form` after a
successful dialog: create the new person from the filtered form data, then
`MERGE` a `CHILD_OF` edge from it to the selected person and to every
spouse partner of the selected person. -/
def addChildComposite (g : Graph) (relatedId newId : String)
    (formResult : PropMap) : Graph :=
  let g1 := createPerson g newId (formFilter formResult)
  let parentIds := relatedId :: spousePartnerIds g1 relatedId
  parentIds.foldl
    (fun acc pid =>
      if (aget acc.persons newId).isSome ∧ (aget acc.persons pid).isSome then
        mergeEdge acc { src := newId, dst := pid, rel := RelType.CHILD_OF }
      else acc)
    g1

/-- Embeds `add_sibling` followed by the `"sibling"` branch of `open_person_form`:
if the selected person has no parent on file the operation stops at an
error dialog and changes nothing (second component `false`); otherwise the
new person is created and linked `CHILD_OF` to every parent of the
selected person. -/
def addSiblingComposite (g : Graph) (relatedId newId : String)
    (formResult : PropMap) : Graph × Bool :=
  if (parentIdsOf g relatedId).isEmpty then (g, false)
  else
    let g1 := createPerson g newId (formFilter formResult)
    ((parentIdsOf g1 relatedId).foldl
      (fun acc pid =>
        if (aget acc.persons newId).isSome ∧ (aget acc.persons pid).isSome then
          mergeEdge acc { src := newId, dst := pid, rel := RelType.CHILD_OF }
        else acc)
      g1, true)

/-! ### GUI navigation state (`view_mode` / `view_context_id` / `history`) -/

/-- The dynamically-typed `view_context_id`: the generation number `1` in
generation mode, a parent id in children mode. -/
inductive ViewCtx where
  | gen : Nat → ViewCtx
  | person : String → ViewCtx
deriving DecidableEq, Repr

/-- The navigation-relevant fields of `FamilyTreeApp`. -/
structure NavState where
  viewMode : String
  viewContext : ViewCtx
  history : List (String × ViewCtx)
deriving DecidableEq, Repr

/-- Embeds `_load_view(mode, context_id, add_to_history)`: optionally push the
current `(view_mode, view_context_id)` pair, then display — children mode
records the given parent context, any other mode displays the top
generation with context `1`. -/
def loadView (s : NavState) (mode : String) (ctx : ViewCtx)
    (addToHistory : Bool) : NavState :=
  let hist := if addToHistory then s.history ++ [(s.viewMode, s.viewContext)]
              else s.history
  if mode = "children" then
    { viewMode := "children", viewContext := ctx, history := hist }
  else
    { viewMode := "generation", viewContext := ViewCtx.gen 1, history := hist }

/-- Embeds `view_children`: no-op without a selection, otherwise load the selected
person's children view, pushing the current view onto the history. -/
def viewChildren (s : NavState) (selectedId : Option String) : NavState :=
  match selectedId with
  | none => s
  | some pid => loadView s "children" (ViewCtx.person pid) true

/-- Embeds `go_back`: no-op on an empty history, otherwise pop the most recent
`(mode, context)` pair and redisplay it without re-pushing. -/
def goBack (s : NavState) : NavState :=
  match s.history.getLast? with
  | none => s
  | some mc =>
      loadView { s with history := s.history.dropLast } mc.1 mc.2 false

/-- Embeds `go_to_top_generation`: clear the whole history, then load the
generation view without touching the history. -/
def goToTop (s : NavState) : NavState :=
  loadView { s with history := [] } "generation" (ViewCtx.gen 1) false

/-- The state after `__init__` plus `initialize_main_app` (which ends with
`go_to_top_generation`). -/
def initNav : NavState :=
  goToTop { viewMode := "generation", viewContext := ViewCtx.gen 1,
            history := [] }

/-! ### Schema-operation sequences (spec §4.2) -/

/-- One schema-configuration operation as offered by `config_menu`. -/
inductive SchemaOp where
  | addKey (key : String) (mandatory : Bool) (defaultValue : Val) : SchemaOp
  | renameKey (oldKey newKey : String) : SchemaOp
  | deleteKey (key : String) : SchemaOp

/-- Run one `config_menu` operation: option 1 rejects managed names before
calling `add_property_key`; options 2 and 3 call the manager directly. -/
def applySchemaOp (g : Graph) : SchemaOp → Graph
  | SchemaOp.addKey k m dv => (addKeyConfig g k m dv).1
  | SchemaOp.renameKey o n => rename_property_key g o n
  | SchemaOp.deleteKey k => delete_property_key g k

/-- Run a sequence of `config_menu` operations in order. -/
def applySchemaOps (g : Graph) (ops : List SchemaOp) : Graph :=
  ops.foldl applySchemaOp g

/-- The schema invariant claimed by the spec: `mandatory_keys ⊆ keys` and
no managed name (`id`, `created_at`) occurs in either list. -/
def SchemaInv (g : Graph) : Prop :=
  (∀ k ∈ g.schemaMandatory, k ∈ g.schemaKeys) ∧
  (∀ k ∈ MANAGED_PROPERTIES, k ∉ g.schemaKeys ∧ k ∉ g.schemaMandatory)

instance (g : Graph) : Decidable (SchemaInv g) := by
  unfold SchemaInv; infer_instance

/-- A schema operation whose rename target avoids the managed names
(`add_key` is already guarded by `config_menu`; `rename_key` is not). -/
def renameAvoidsManaged : SchemaOp → Prop
  | SchemaOp.renameKey _ n => n ∉ MANAGED_PROPERTIES
  | _ => True

instance (op : SchemaOp) : Decidable (renameAvoidsManaged op) := by
  unfold renameAvoidsManaged; cases op <;> infer_instance

/-- The edge-list effect of one `MERGE (c)-[:CHILD_OF]->(p)` step: used to
describe the child-linking fold of `open_person_form`. -/
def insertChildEdge (cid : String) (es : List Edge) (pid : String) :
    List Edge :=
  if ({ src := cid, dst := pid, rel := RelType.CHILD_OF } : Edge) ∈ es
  then es
  else es ++ [{ src := cid, dst := pid, rel := RelType.CHILD_OF }]

/-! ### Concrete states used to instantiate the theorems -/

/-- Two unrelated persons. -/
def twoPersons : Graph :=
  add_person (add_person initGraph "a1" [] 1) "b1" [] 2

/-- A person `p` with the two spouses `s1` and `s2` on record. -/
def personWithTwoSpouses : Graph :=
  (add_relationship
    ((add_relationship
      (add_person (add_person (add_person initGraph "p" [] 1) "s1" [] 2)
        "s2" [] 3)
      "p" "s1" "SPOUSE_OF").1)
    "p" "s2" "SPOUSE_OF").1

/-- A person holding values for both `firstName` and `lastName`. -/
def personAB : Graph :=
  add_person initGraph "p1"
    [("firstName", Val.str "A"), ("lastName", Val.str "B")] 1

/-! ### Association-list lemmas -/

theorem aget_aset_self {α : Type} (l : List (String × α)) (k : String) (v : α) :
    aget (aset l k v) k = some v := by
  induction l with
  | nil => simp [aget, aset]
  | cons hd tl ih =>
      by_cases h : hd.1 = k
      · simp [aset, aget, h]
      · simp [aset, aget, h, ih]

theorem aget_aset_ne {α : Type} (l : List (String × α)) (k k' : String) (v : α)
    (h : k ≠ k') : aget (aset l k v) k' = aget l k' := by
  induction l with
  | nil => simp [aget, aset, h]
  | cons hd tl ih =>
      by_cases hh : hd.1 = k
      · simp [aset, aget, hh, h]
      · simp only [aset, if_neg hh]
        by_cases hk' : hd.1 = k'
        · simp [aget, hk']
        · simp [aget, hk', ih]

theorem aget_append_of_none {α : Type} (xs ys : List (String × α)) (k : String)
    (h : aget xs k = none) : aget (xs ++ ys) k = aget ys k := by
  induction xs with
  | nil => simp
  | cons hd tl ih =>
      by_cases hh : hd.1 = k
      · simp [aget, hh] at h
      · simp only [aget, if_neg hh] at h
        simpa [aget, hh] using ih h

theorem aget_append_of_some {α : Type} (xs ys : List (String × α)) (k : String)
    (v : α) (h : aget xs k = some v) : aget (xs ++ ys) k = some v := by
  induction xs with
  | nil => simp [aget] at h
  | cons hd tl ih =>
      by_cases hh : hd.1 = k
      · simp [aget, hh] at h ⊢; exact h
      · simp only [aget, if_neg hh] at h
        simpa [aget, hh] using ih h

theorem aget_append_single_ne {α : Type} (xs : List (String × α))
    (k0 k : String) (v0 : α) (h : k ≠ k0) :
    aget (xs ++ [(k0, v0)]) k = aget xs k := by
  have h0 : k0 ≠ k := fun hh => h hh.symm
  induction xs with
  | nil => simp [aget, h0]
  | cons hd tl ih =>
      by_cases hh : hd.1 = k
      · simp [aget, hh]
      · simp [aget, hh, ih]

theorem aget_map {α β : Type} (f : α → β) (l : List (String × α)) (k : String) :
    aget (l.map (fun p => (p.1, f p.2))) k = (aget l k).map f := by
  induction l with
  | nil => simp [aget]
  | cons hd tl ih =>
      by_cases hh : hd.1 = k
      · simp [aget, hh]
      · simp [aget, hh, ih]

theorem aget_eq_none_of_not_mem_keys {α : Type} (l : List (String × α))
    (k : String) (h : k ∉ l.map Prod.fst) : aget l k = none := by
  induction l with
  | nil => simp [aget]
  | cons hd tl ih =>
      simp only [List.map_cons, List.mem_cons] at h
      push_neg at h
      have h1 : hd.1 ≠ k := fun hh => h.1 hh.symm
      simp [aget, h1, ih h.2]

theorem aget_setAll_of_none (pm updates : PropMap) (k : String)
    (h : aget updates k = none) : aget (setAll pm updates) k = aget pm k := by
  induction updates generalizing pm with
  | nil => simp [setAll]
  | cons hd tl ih =>
      by_cases hh : hd.1 = k
      · simp [aget, hh] at h
      · simp only [aget, if_neg hh] at h
        have : setAll pm (hd :: tl) = setAll (aset pm hd.1 hd.2) tl := by
          simp [setAll]
        rw [this, ih _ h, aget_aset_ne _ _ _ _ hh]

theorem aget_setAll_of_some (pm updates : PropMap) (k : String) (v : Val)
    (hnd : (updates.map Prod.fst).Nodup) (h : aget updates k = some v) :
    aget (setAll pm updates) k = some v := by
  induction updates generalizing pm with
  | nil => simp [aget] at h
  | cons hd tl ih =>
      simp only [List.map_cons, List.nodup_cons] at hnd
      have hstep : setAll pm (hd :: tl) = setAll (aset pm hd.1 hd.2) tl := by
        simp [setAll]
      by_cases hh : hd.1 = k
      · simp only [aget, if_pos hh] at h
        have htl : aget tl k = none := by
          apply aget_eq_none_of_not_mem_keys
          rw [← hh]; exact hnd.1
        rw [hstep, aget_setAll_of_none _ _ _ htl, hh,
          aget_aset_self]
        exact congrArg some (Option.some.inj h)
      · simp only [aget, if_neg hh] at h
        rw [hstep]; exact ih _ hnd.2 h

theorem aget_removeProp_self (pm : PropMap) (k : String) :
    aget (removeProp pm k) k = none := by
  induction pm with
  | nil => simp [removeProp, aget]
  | cons hd tl ih =>
      by_cases hh : hd.1 = k
      · simpa [removeProp, hh] using ih
      · simpa [removeProp, aget, hh] using ih

theorem aget_removeProp_ne (pm : PropMap) (k k' : String) (h : k ≠ k') :
    aget (removeProp pm k) k' = aget pm k' := by
  induction pm with
  | nil => simp [removeProp]
  | cons hd tl ih =>
      by_cases hh : hd.1 = k
      · have h2 : hd.1 ≠ k' := by rw [hh]; exact h
        rw [show removeProp (hd :: tl) k = removeProp tl k by
          simp [removeProp, List.filter_cons, hh]]
        rw [ih]
        simp [aget, h2]
      · rw [show removeProp (hd :: tl) k = hd :: removeProp tl k by
          simp [removeProp, List.filter_cons, hh]]
        by_cases hk' : hd.1 = k'
        · simp [aget, hk']
        · simp [aget, hk', ih]

/-! ### Claim C2: `add` followed by `find` -/

/-- C2: for every id not already present as a Person and every property map
(no duplicate keys) not containing `id` or `created_at`, `add_person`
followed by `find_person` returns a property map holding exactly the
submitted properties plus the creation timestamp stamped at the call and
the original id. -/
theorem add_then_find_exact (g : Graph) (pid : String) (props : PropMap)
    (now : Int)
    (hfresh : find_person g pid = none)
    (hnd : (props.map Prod.fst).Nodup)
    (hid : aget props "id" = none)
    (hts : aget props "created_at" = none) :
    find_person (add_person g pid props now) pid =
      some (setAll [("id", Val.str pid), ("created_at", Val.int now)] props) ∧
    aget (setAll [("id", Val.str pid), ("created_at", Val.int now)] props)
      "id" = some (Val.str pid) ∧
    aget (setAll [("id", Val.str pid), ("created_at", Val.int now)] props)
      "created_at" = some (Val.int now) ∧
    ∀ k, k ≠ "id" → k ≠ "created_at" →
      aget (setAll [("id", Val.str pid), ("created_at", Val.int now)] props) k
        = aget props k := by
  unfold find_person at hfresh
  refine ⟨?_, ?_, ?_, ?_⟩
  · unfold add_person find_person
    rw [hfresh]
    simp only
    rw [aget_append_of_none _ _ _ hfresh]
    simp [aget]
  · rw [aget_setAll_of_none _ _ _ hid]
    simp [aget]
  · rw [aget_setAll_of_none _ _ _ hts]
    simp [aget]
  · intro k hk1 hk2
    cases hpk : aget props k with
    | none =>
        rw [aget_setAll_of_none _ _ _ hpk]
        simp [aget, Ne.symm hk1, Ne.symm hk2]
    | some v => exact aget_setAll_of_some _ _ _ _ hnd hpk

/-- C2 witness: a concrete instantiation of `add_then_find_exact`. -/
theorem add_then_find_exact_witness :
    find_person (add_person initGraph "gen1_01"
        [("firstName", Val.str "A")] 7) "gen1_01" =
      some (setAll [("id", Val.str "gen1_01"), ("created_at", Val.int 7)]
        [("firstName", Val.str "A")]) ∧
    aget (setAll [("id", Val.str "gen1_01"), ("created_at", Val.int 7)]
        [("firstName", Val.str "A")]) "id" = some (Val.str "gen1_01") ∧
    aget (setAll [("id", Val.str "gen1_01"), ("created_at", Val.int 7)]
        [("firstName", Val.str "A")]) "created_at" = some (Val.int 7) ∧
    aget (setAll [("id", Val.str "gen1_01"), ("created_at", Val.int 7)]
        [("firstName", Val.str "A")]) "firstName" =
      aget [("firstName", Val.str "A")] "firstName" := by
  have h := add_then_find_exact initGraph "gen1_01"
    [("firstName", Val.str "A")] 7 (by decide) (by decide) (by decide)
    (by decide)
  exact ⟨h.1, h.2.1, h.2.2.1, h.2.2.2 "firstName" (by decide) (by decide)⟩

/-! ### Claim C9: `add` on an existing Person -/

/-- C9 counterexample: the claim quantifies over every property map, but a
property map containing `created_at` overwrites the original creation
timestamp on a second `add_person` call (`SET p += $properties` sets every
submitted key, including the managed ones). -/
theorem add_person_overlay_counterexample :
    aget ((find_person (add_person initGraph "p1" [] 5) "p1").getD [])
      "created_at" = some (Val.int 5) ∧
    aget ((find_person (add_person (add_person initGraph "p1" [] 5) "p1"
        [("created_at", Val.int 0)] 9) "p1").getD [])
      "created_at" = some (Val.int 0) := by decide

/-- C9 (amended): for every id that already exists as a Person and every
property map (no duplicate keys) that does not itself contain `id` or
`created_at`, a second `add_person` call overlays the given properties but
leaves the Person's id, its original creation timestamp, and every other
untouched property unchanged. -/
theorem add_person_existing_overlay (g : Graph) (pid : String)
    (props : PropMap) (now : Int) (pm : PropMap)
    (hex : find_person g pid = some pm)
    (hnd : (props.map Prod.fst).Nodup)
    (hid : aget props "id" = none)
    (hts : aget props "created_at" = none) :
    find_person (add_person g pid props now) pid = some (setAll pm props) ∧
    aget (setAll pm props) "id" = aget pm "id" ∧
    aget (setAll pm props) "created_at" = aget pm "created_at" ∧
    (∀ k v, aget props k = some v → aget (setAll pm props) k = some v) ∧
    (∀ k, aget props k = none → aget (setAll pm props) k = aget pm k) := by
  unfold find_person at hex
  refine ⟨?_, aget_setAll_of_none _ _ _ hid, aget_setAll_of_none _ _ _ hts,
    fun k v hk => aget_setAll_of_some _ _ _ _ hnd hk,
    fun k hk => aget_setAll_of_none _ _ _ hk⟩
  unfold add_person find_person
  rw [hex]
  simp only
  exact aget_aset_self _ _ _

/-- C9 witness: a concrete instantiation of `add_person_existing_overlay`. -/
theorem add_person_existing_overlay_witness :
    find_person (add_person (add_person initGraph "p1" [] 5) "p1"
        [("firstName", Val.str "B")] 9) "p1" =
      some (setAll [("id", Val.str "p1"), ("created_at", Val.int 5)]
        [("firstName", Val.str "B")]) ∧
    aget (setAll [("id", Val.str "p1"), ("created_at", Val.int 5)]
        [("firstName", Val.str "B")]) "created_at" =
      aget [("id", Val.str "p1"), ("created_at", Val.int 5)] "created_at" := by
  have h := add_person_existing_overlay (add_person initGraph "p1" [] 5) "p1"
    [("firstName", Val.str "B")] 9
    [("id", Val.str "p1"), ("created_at", Val.int 5)]
    (by decide) (by decide) (by decide) (by decide)
  exact ⟨h.1, h.2.2.1⟩

/-! ### Claim C3: `add_key` rejects reserved names -/

/-- C3: for every reserved name (`id` or `created_at`), the configuration
menu's add-property path reports a validation error and returns the store
unchanged — schema lists and Person nodes included. -/
theorem addKey_rejects_reserved (g : Graph) (key : String)
    (isMandatory : Bool) (dv : Val) (h : key = "id" ∨ key = "created_at") :
    addKeyConfig g key isMandatory dv = (g, false) := by
  have hm : key ∈ MANAGED_PROPERTIES := by
    rcases h with h | h <;> simp [MANAGED_PROPERTIES, h]
  simp [addKeyConfig, hm]

/-- C3 witness: a concrete instantiation of `addKey_rejects_reserved`. -/
theorem addKey_rejects_reserved_witness :
    addKeyConfig initGraph "id" true (Val.str "") = (initGraph, false) :=
  addKey_rejects_reserved initGraph "id" true (Val.str "") (Or.inl rfl)

/-! ### Claim C5: add-sibling with no parent on file -/

/-- C5: for every person with no outgoing `CHILD_OF` edge, the composite
add-sibling operation fails with a validation error and leaves the store
unchanged: no Person node and no edge is created. -/
theorem addSibling_no_parent_fails (g : Graph) (relatedId newId : String)
    (formResult : PropMap)
    (h : ∀ e ∈ g.edges, ¬(e.rel = RelType.CHILD_OF ∧ e.src = relatedId)) :
    addSiblingComposite g relatedId newId formResult = (g, false) := by
  have hp : parentIdsOf g relatedId = [] := by
    unfold parentIdsOf
    by_cases hex : (aget g.persons relatedId).isSome
    · have hfm : g.edges.filterMap (parentCandidate relatedId) = [] := by
        rw [List.filterMap_eq_nil_iff]
        intro e he
        simp [parentCandidate, h e he]
      simp [hex, hfm]
    · simp [hex]
  simp [addSiblingComposite, hp]

/-- C5 witness: a concrete instantiation of `addSibling_no_parent_fails`. -/
theorem addSibling_no_parent_fails_witness :
    addSiblingComposite (add_person initGraph "p" [] 1) "p" "p_1" [] =
      (add_person initGraph "p" [] 1, false) :=
  addSibling_no_parent_fails (add_person initGraph "p" [] 1) "p" "p_1" []
    (by decide)

/-! ### Claim C8: GUI navigation state machine -/

/-- C8: the navigation state machine starts in the generation (ROOT) view
with an empty history; viewing a selected person's children pushes the
current `(mode, context)` pair and moves to the children view of that
person; going back pops the most recent pair and redisplays it without
re-pushing; going to the top generation clears the whole history and
returns to the generation view. -/
theorem navigation_state_machine (s : NavState) (pid : String) (m : String)
    (c : ViewCtx) :
    initNav = { viewMode := "generation", viewContext := ViewCtx.gen 1,
                history := [] } ∧
    viewChildren s (some pid) =
      { viewMode := "children", viewContext := ViewCtx.person pid,
        history := s.history ++ [(s.viewMode, s.viewContext)] } ∧
    (s.history.getLast? = some ("children", c) →
      goBack s = { viewMode := "children", viewContext := c,
                   history := s.history.dropLast }) ∧
    (s.history.getLast? = some (m, c) → m ≠ "children" →
      goBack s = { viewMode := "generation", viewContext := ViewCtx.gen 1,
                   history := s.history.dropLast }) ∧
    goToTop s = { viewMode := "generation", viewContext := ViewCtx.gen 1,
                  history := [] } := by
  refine ⟨by decide, ?_, ?_, ?_, ?_⟩
  · simp [viewChildren, loadView]
  · intro h
    simp [goBack, h, loadView]
  · intro h hm
    simp [goBack, h, loadView, hm]
  · simp [goToTop, loadView]

/-- C8 witness: a concrete instantiation of `navigation_state_machine`:
going back after one view-children transition from the initial state
returns to the initial state. -/
theorem navigation_state_machine_witness :
    goBack (viewChildren initNav (some "p1")) =
      { viewMode := "generation", viewContext := ViewCtx.gen 1,
        history := [] } := by
  rw [(navigation_state_machine (viewChildren initNav (some "p1")) "p1"
    "generation" (ViewCtx.gen 1)).2.2.2.1 (by decide) (by decide)]
  decide

/-! ### Claim C1: the schema invariant under configuration operations -/

/-- One configuration step preserves the schema invariant, provided a
rename's new name is not a managed name. -/
theorem schemaInv_step (g : Graph) (op : SchemaOp) (hinv : SchemaInv g)
    (hop : renameAvoidsManaged op) : SchemaInv (applySchemaOp g op) := by
  obtain ⟨hsub, hman⟩ := hinv
  cases op with
  | addKey k m dv =>
      by_cases hk : k ∈ MANAGED_PROPERTIES
      · simpa [applySchemaOp, addKeyConfig, hk] using ⟨hsub, hman⟩
      · have hkeys : ((addKeyConfig g k m dv).1).schemaKeys =
            if k ∈ g.schemaKeys then g.schemaKeys else g.schemaKeys ++ [k] := by
          simp [addKeyConfig, hk, add_property_key]
        have hmand : ((addKeyConfig g k m dv).1).schemaMandatory =
            if m then
              (if k ∈ g.schemaMandatory then g.schemaMandatory
               else g.schemaMandatory ++ [k])
            else g.schemaMandatory := by
          simp [addKeyConfig, hk, add_property_key]
        have hkeysup : ∀ x ∈ g.schemaKeys,
            x ∈ ((addKeyConfig g k m dv).1).schemaKeys := by
          intro x hx
          rw [hkeys]
          split <;> simp [hx]
        have hkmem : k ∈ ((addKeyConfig g k m dv).1).schemaKeys := by
          rw [hkeys]
          split
          · assumption
          · simp
        simp only [applySchemaOp]
        constructor
        · intro x hx
          rw [hmand] at hx
          have : x ∈ g.schemaMandatory ∨ x = k := by
            revert hx
            split
            · split
              · exact fun hx => Or.inl hx
              · intro hx
                rcases List.mem_append.mp hx with hx | hx
                · exact Or.inl hx
                · exact Or.inr (List.mem_singleton.mp hx)
            · exact fun hx => Or.inl hx
          rcases this with hx | hx
          · exact hkeysup x (hsub x hx)
          · rw [hx]; exact hkmem
        · intro mp hmp
          obtain ⟨h1, h2⟩ := hman mp hmp
          have hmpk : mp ≠ k := fun he => hk (he ▸ hmp)
          constructor
          · rw [hkeys]
            split
            · exact h1
            · intro hc
              rcases List.mem_append.mp hc with hc | hc
              · exact h1 hc
              · exact hmpk (List.mem_singleton.mp hc)
          · rw [hmand]
            split
            · split
              · exact h2
              · intro hc
                rcases List.mem_append.mp hc with hc | hc
                · exact h2 hc
                · exact hmpk (List.mem_singleton.mp hc)
            · exact h2
  | renameKey o n =>
      have hn : n ∉ MANAGED_PROPERTIES := hop
      by_cases ho : o ∈ g.schemaKeys
      · have homan :
            (rename_property_key g o n).schemaMandatory =
              if o ∈ g.schemaMandatory then
                g.schemaMandatory.map (fun k => if k = o then n else k)
              else g.schemaMandatory := by
          simp [rename_property_key]
        have hokeys : (rename_property_key g o n).schemaKeys =
            g.schemaKeys.map (fun k => if k = o then n else k) := by
          simp [rename_property_key, ho]
        constructor
        · intro x hx
          simp only [applySchemaOp] at hx ⊢
          rw [homan] at hx
          rw [hokeys]
          by_cases hom : o ∈ g.schemaMandatory
          · rw [if_pos hom] at hx
            obtain ⟨y, hy, hyx⟩ := List.mem_map.mp hx
            exact hyx ▸ List.mem_map_of_mem _ (hsub y hy)
          · rw [if_neg hom] at hx
            have hxo : x ≠ o := fun he => hom (he ▸ hx)
            have : (if x = o then n else x) = x := if_neg hxo
            exact this ▸ List.mem_map_of_mem _ (hsub x hx)
        · intro mp hmp
          obtain ⟨h1, h2⟩ := hman mp hmp
          have hnot : ∀ l : List String, (∀ x ∈ l, x ∈ g.schemaKeys) →
              mp ∉ l.map (fun k => if k = o then n else k) := by
            intro l hl hc
            obtain ⟨y, hy, hyx⟩ := List.mem_map.mp hc
            by_cases hyo : y = o
            · rw [if_pos hyo] at hyx
              exact hn (hyx ▸ hmp)
            · rw [if_neg hyo] at hyx
              exact h1 (hyx ▸ hl y hy)
          simp only [applySchemaOp]
          rw [hokeys, homan]
          refine ⟨hnot g.schemaKeys (fun x hx => hx), ?_⟩
          split
          · exact hnot g.schemaMandatory hsub
          · exact h2
      · have homan : o ∉ g.schemaMandatory := fun hom => ho (hsub o hom)
        have hsame : (rename_property_key g o n).schemaKeys = g.schemaKeys ∧
            (rename_property_key g o n).schemaMandatory =
              g.schemaMandatory := by
          constructor <;> simp [rename_property_key, ho, homan]
        simp only [applySchemaOp]
        rw [SchemaInv, hsame.1, hsame.2]
        exact ⟨hsub, hman⟩
  | deleteKey k =>
      constructor
      · intro x hx
        simp only [applySchemaOp, delete_property_key, List.mem_filter,
          decide_eq_true_eq] at hx ⊢
        exact ⟨hsub x hx.1, hx.2⟩
      · intro mp hmp
        obtain ⟨h1, h2⟩ := hman mp hmp
        constructor <;>
          simp only [applySchemaOp, delete_property_key, List.mem_filter,
            decide_eq_true_eq] <;>
          intro hc
        · exact h1 hc.1
        · exact h2 hc.1

/-- Any sequence of configuration steps with managed-avoiding renames
preserves the schema invariant. -/
theorem schemaInv_ops (g : Graph) (ops : List SchemaOp) (hinv : SchemaInv g)
    (hops : ∀ op ∈ ops, renameAvoidsManaged op) :
    SchemaInv (applySchemaOps g ops) := by
  induction ops generalizing g with
  | nil => simpa [applySchemaOps] using hinv
  | cons op tl ih =>
      have h1 := schemaInv_step g op hinv (hops op (List.mem_cons_self _ _))
      have h2 := ih (applySchemaOp g op) h1
        (fun o ho => hops o (List.mem_cons_of_mem _ ho))
      simpa [applySchemaOps] using h2

/-- C1 counterexample: renaming an existing key to `id` puts `id` into the
schema's `keys` list — neither `config_menu` nor `rename_property_key`
checks the new name against the managed names. -/
theorem schema_invariant_counterexample :
    "id" ∈ (applySchemaOps initGraph
      [SchemaOp.renameKey "firstName" "id"]).schemaKeys := by decide

/-- C1 (amended): for every sequence of `add_key`/`rename_key`/`delete_key`
operations applied to the initialized schema record, in which no
`rename_key` call has `id` or `created_at` as its new name, the resulting
`mandatory_keys` list is a subset of the `keys` list and neither list
contains `id` or `created_at`. -/
theorem schema_invariant_of_ops (ops : List SchemaOp)
    (hops : ∀ op ∈ ops, renameAvoidsManaged op) :
    SchemaInv (applySchemaOps initGraph ops) :=
  schemaInv_ops initGraph ops (by decide) hops

/-- C1 witness: a concrete instantiation of `schema_invariant_of_ops`. -/
theorem schema_invariant_of_ops_witness :
    (∀ op ∈ [SchemaOp.addKey "nickname" true (Val.str ""),
             SchemaOp.renameKey "nickname" "alias",
             SchemaOp.deleteKey "dod"], renameAvoidsManaged op) ∧
    SchemaInv (applySchemaOps initGraph
      [SchemaOp.addKey "nickname" true (Val.str ""),
       SchemaOp.renameKey "nickname" "alias",
       SchemaOp.deleteKey "dod"]) :=
  ⟨by decide, schema_invariant_of_ops _ (by decide)⟩

/-! ### Claim C6: spouse-link idempotence -/

/-- Membership in a spouse-partner list implies the partner exists. -/
theorem exists_of_mem_spousePartnerIds (g : Graph) (pid s : String)
    (h : s ∈ spousePartnerIds g pid) : (aget g.persons s).isSome := by
  unfold spousePartnerIds at h
  by_cases hex : (aget g.persons pid).isSome
  · rw [if_pos hex] at h
    simpa using (List.mem_filter.mp h).2
  · rw [if_neg hex] at h
    simp at h

/-- C6: for two existing persons `a` and `b` with no `SPOUSE_OF` edge yet
between them, calling `add_relationship(a, b, "SPOUSE_OF")` twice has no
additional effect over calling it once, and results in exactly one
`SPOUSE_OF` edge between `a` and `b` — also as observed through the
spouse-relatives query, which lists `b` exactly once. -/
theorem spouse_link_idempotent (g : Graph) (a b : String)
    (ha : (aget g.persons a).isSome) (hb : (aget g.persons b).isSome)
    (hnone : ∀ e ∈ g.edges, spouseBetween a b e = false) :
    (add_relationship (add_relationship g a b "SPOUSE_OF").1 a b
        "SPOUSE_OF").1 =
      (add_relationship g a b "SPOUSE_OF").1 ∧
    ((add_relationship (add_relationship g a b "SPOUSE_OF").1 a b
        "SPOUSE_OF").1.edges.filter (spouseBetween a b)).length = 1 ∧
    (spousePartnerIds (add_relationship (add_relationship g a b
        "SPOUSE_OF").1 a b "SPOUSE_OF").1 a).count b = 1 := by
  have hrel : relOf (pyUpper "SPOUSE_OF") = some RelType.SPOUSE_OF := by
    decide
  have hmemF : ({ src := a, dst := b, rel := RelType.SPOUSE_OF } : Edge)
      ∉ g.edges := by
    intro hm
    have := hnone _ hm
    simp [spouseBetween] at this
  have hg1 : (add_relationship g a b "SPOUSE_OF").1 =
      { g with edges := g.edges ++
          [{ src := a, dst := b, rel := RelType.SPOUSE_OF }] } := by
    simp [add_relationship, hrel, ha, hb, mergeEdge, hmemF]
  have hg2 : (add_relationship
      { g with edges := g.edges ++
          [{ src := a, dst := b, rel := RelType.SPOUSE_OF }] } a b
      "SPOUSE_OF").1 =
      { g with edges := g.edges ++
          [{ src := a, dst := b, rel := RelType.SPOUSE_OF }] } := by
    have hmem2 : ({ src := a, dst := b, rel := RelType.SPOUSE_OF } : Edge)
        ∈ g.edges ++ [{ src := a, dst := b, rel := RelType.SPOUSE_OF }] := by
      simp
    simp [add_relationship, hrel, ha, hb, mergeEdge, hmem2]
  have hfilnil : g.edges.filter (spouseBetween a b) = [] := by
    rw [List.filter_eq_nil_iff]
    intro e he
    simp [hnone e he]
  have hnotc : b ∉ (g.edges.filterMap (spouseCandidate a)).filter
      (fun s => (aget g.persons s).isSome) := by
    intro hc
    obtain ⟨e, he, hfe⟩ := List.mem_filterMap.mp (List.mem_filter.mp hc).1
    by_cases h1 : e.rel = RelType.SPOUSE_OF
    · by_cases h2 : e.src = a
      · have hdst : e.dst = b := by simpa [spouseCandidate, h1, h2] using hfe
        have := hnone e he
        simp [spouseBetween, h1, h2, hdst] at this
      · by_cases h3 : e.dst = a
        · have hsrc : e.src = b := by
            simpa [spouseCandidate, h1, h2, h3] using hfe
          have := hnone e he
          simp [spouseBetween, h1, h3, hsrc] at this
        · simp [spouseCandidate, h1, h2, h3] at hfe
    · simp [spouseCandidate, h1] at hfe
  refine ⟨by rw [hg1, hg2], ?_, ?_⟩
  · rw [hg1, hg2]
    simp only [List.filter_append, hfilnil, List.nil_append]
    simp [spouseBetween]
  · rw [hg1, hg2]
    have hsp : spousePartnerIds
        { g with edges := g.edges ++
            [{ src := a, dst := b, rel := RelType.SPOUSE_OF }] } a =
        ((g.edges.filterMap (spouseCandidate a)).filter
          (fun s => (aget g.persons s).isSome)) ++ [b] := by
      simp only [spousePartnerIds]
      rw [if_pos (by simpa using ha)]
      simp only [List.filterMap_append, List.filter_append]
      have hcand : List.filterMap (spouseCandidate a)
          [{ src := a, dst := b, rel := RelType.SPOUSE_OF }] = [b] := by
        simp [spouseCandidate]
      rw [hcand]
      congr 1
      simp [hb]
    rw [hsp, List.count_append]
    rw [List.count_eq_zero.mpr hnotc]
    simp

/-- C6 witness: a concrete instantiation of `spouse_link_idempotent`. -/
theorem spouse_link_idempotent_witness :
    (add_relationship (add_relationship twoPersons "a1" "b1"
        "SPOUSE_OF").1 "a1" "b1" "SPOUSE_OF").1 =
      (add_relationship twoPersons "a1" "b1" "SPOUSE_OF").1 ∧
    ((add_relationship (add_relationship twoPersons "a1" "b1"
        "SPOUSE_OF").1 "a1" "b1" "SPOUSE_OF").1.edges.filter
        (spouseBetween "a1" "b1")).length = 1 ∧
    (spousePartnerIds (add_relationship (add_relationship twoPersons "a1"
        "b1" "SPOUSE_OF").1 "a1" "b1" "SPOUSE_OF").1 "a1").count "b1" = 1 :=
  spouse_link_idempotent twoPersons "a1" "b1" (by decide) (by decide)
    (by decide)

/-! ### Claim C7: relationship-kind validation in `add_relationship` -/

/-- C7 counterexample: `"child_of"` is a relationship-type argument other
than `CHILD_OF` and `SPOUSE_OF`, yet `add_relationship` does not reject it
(the argument is uppercased before validation) and creates an edge. -/
theorem link_validation_counterexample :
    ("child_of" ≠ "CHILD_OF" ∧ "child_of" ≠ "SPOUSE_OF") ∧
    (add_relationship twoPersons "a1" "b1" "child_of").2 = true ∧
    (add_relationship twoPersons "a1" "b1" "child_of").1.edges =
      [{ src := "a1", dst := "b1", rel := RelType.CHILD_OF }] := by decide

/-- C7 (amended): for every relationship-type argument whose uppercased
form is neither `CHILD_OF` nor `SPOUSE_OF`, `add_relationship` rejects the
request with a validation error and creates no edge; for arguments
uppercasing to `CHILD_OF` or `SPOUSE_OF` (and existing endpoints) it
creates the corresponding edge by merge. -/
theorem link_validation (g : Graph) (id1 id2 relType : String) :
    (pyUpper relType ≠ "CHILD_OF" → pyUpper relType ≠ "SPOUSE_OF" →
      add_relationship g id1 id2 relType = (g, false)) ∧
    (pyUpper relType = "CHILD_OF" → (aget g.persons id1).isSome →
      (aget g.persons id2).isSome →
      add_relationship g id1 id2 relType =
        (mergeEdge g { src := id1, dst := id2, rel := RelType.CHILD_OF },
         true)) ∧
    (pyUpper relType = "SPOUSE_OF" → (aget g.persons id1).isSome →
      (aget g.persons id2).isSome →
      add_relationship g id1 id2 relType =
        (mergeEdge g { src := id1, dst := id2, rel := RelType.SPOUSE_OF },
         true)) := by
  refine ⟨?_, ?_, ?_⟩
  · intro h1 h2
    have hro : relOf (pyUpper relType) = none := by simp [relOf, h1, h2]
    simp [add_relationship, hro]
  · intro h hp1 hp2
    have hro : relOf (pyUpper relType) = some RelType.CHILD_OF := by
      rw [h]; decide
    simp [add_relationship, hro, hp1, hp2]
  · intro h hp1 hp2
    have hro : relOf (pyUpper relType) = some RelType.SPOUSE_OF := by
      rw [h]; decide
    simp [add_relationship, hro, hp1, hp2]

/-- C7 witness: a concrete instantiation of `link_validation`: a genuinely
invalid kind is rejected without touching the store, while a lowercase
spelling of a valid kind merges an edge. -/
theorem link_validation_witness :
    add_relationship twoPersons "a1" "b1" "PARENT_OF" =
      (twoPersons, false) ∧
    add_relationship twoPersons "a1" "b1" "spouse_of" =
      (mergeEdge twoPersons
        { src := "a1", dst := "b1", rel := RelType.SPOUSE_OF }, true) :=
  ⟨(link_validation twoPersons "a1" "b1" "PARENT_OF").1 (by decide)
      (by decide),
   (link_validation twoPersons "a1" "b1" "spouse_of").2.2 (by decide)
      (by decide) (by decide)⟩

/-! ### Claim C10: renaming onto an existing key -/

/-- Counting after the rename substitution: every occurrence of either the
old or the new name becomes an occurrence of the new name. -/
theorem count_map_subst (l : List String) (o n : String) (h : o ≠ n) :
    (l.map (fun k => if k = o then n else k)).count n =
      l.count o + l.count n := by
  induction l with
  | nil => simp
  | cons hd tl ih =>
      by_cases hh : hd = o
      · subst hh
        simp only [List.map_cons, if_pos rfl, List.count_cons, ih,
          beq_iff_eq]
        simp [h, Ne.symm h]
        omega
      · by_cases hn : hd = n
        · subst hn
          simp only [List.map_cons, if_neg hh, List.count_cons, ih,
            beq_iff_eq]
          simp [hh]
          omega
        · simp only [List.map_cons, if_neg hh, List.count_cons, ih,
            beq_iff_eq]
          simp [hh, hn]

/-- C10: when `oldKey` and `newKey` are distinct names both already in the
(duplicate-free) `keys` list, `rename_property_key` substitutes without
checking for `newKey`'s presence, so `keys` afterwards holds `newKey`
twice; and on every Person that has `oldKey` set, the bulk update
overwrites the value under `newKey` with the value under `oldKey` and
removes `oldKey`. -/
theorem rename_existing_key_duplicates (g : Graph) (oldKey newKey : String)
    (hne : oldKey ≠ newKey)
    (hold : oldKey ∈ g.schemaKeys) (hnew : newKey ∈ g.schemaKeys)
    (hnd : g.schemaKeys.Nodup) :
    (rename_property_key g oldKey newKey).schemaKeys.count newKey = 2 ∧
    ∀ pid pm v, aget g.persons pid = some pm → aget pm oldKey = some v →
      aget (rename_property_key g oldKey newKey).persons pid =
        some (removeProp (aset pm newKey v) oldKey) ∧
      aget (removeProp (aset pm newKey v) oldKey) newKey = some v ∧
      aget (removeProp (aset pm newKey v) oldKey) oldKey = none := by
  constructor
  · have hkeys : (rename_property_key g oldKey newKey).schemaKeys =
        g.schemaKeys.map (fun k => if k = oldKey then newKey else k) := by
      simp [rename_property_key, hold]
    rw [hkeys, count_map_subst _ _ _ hne,
      List.count_eq_one_of_mem hnd hold, List.count_eq_one_of_mem hnd hnew]
  · intro pid pm v hpid hv
    have hpers : (rename_property_key g oldKey newKey).persons =
        g.persons.map (fun p => (p.1, renameNodeProp oldKey newKey p.2)) := by
      simp [rename_property_key]
    refine ⟨?_, ?_, aget_removeProp_self _ _⟩
    · rw [hpers, aget_map, hpid]
      simp [renameNodeProp, hv]
    · rw [aget_removeProp_ne _ _ _ hne]
      exact aget_aset_self _ _ _

/-- C10 witness: a concrete instantiation of
`rename_existing_key_duplicates` on the default schema. -/
theorem rename_existing_key_duplicates_witness :
    (rename_property_key personAB "firstName" "lastName").schemaKeys.count
      "lastName" = 2 ∧
    aget (rename_property_key personAB "firstName" "lastName").persons
      "p1" = some (removeProp (aset
        [("id", Val.str "p1"), ("created_at", Val.int 1),
         ("firstName", Val.str "A"), ("lastName", Val.str "B")]
        "lastName" (Val.str "A")) "firstName") ∧
    aget (removeProp (aset
        [("id", Val.str "p1"), ("created_at", Val.int 1),
         ("firstName", Val.str "A"), ("lastName", Val.str "B")]
        "lastName" (Val.str "A")) "firstName") "lastName" =
      some (Val.str "A") ∧
    aget (removeProp (aset
        [("id", Val.str "p1"), ("created_at", Val.int 1),
         ("firstName", Val.str "A"), ("lastName", Val.str "B")]
        "lastName" (Val.str "A")) "firstName") "firstName" = none := by
  have h := rename_existing_key_duplicates personAB "firstName" "lastName"
    (by decide) (by decide) (by decide) (by decide)
  have h2 := h.2 "p1"
    [("id", Val.str "p1"), ("created_at", Val.int 1),
     ("firstName", Val.str "A"), ("lastName", Val.str "B")]
    (Val.str "A") (by decide) (by decide)
  exact ⟨h.1, h2.1, h2.2.1, h2.2.2⟩

/-! ### Claim C4: add-child with two recorded spouses -/

/-- A spouse candidate produced from an edge is one of its endpoints. -/
theorem spouseCandidate_endpoint (pid : String) (e : Edge) (s : String)
    (h : spouseCandidate pid e = some s) : s = e.dst ∨ s = e.src := by
  unfold spouseCandidate at h
  by_cases h1 : e.rel = RelType.SPOUSE_OF
  · rw [if_pos h1] at h
    by_cases h2 : e.src = pid
    · rw [if_pos h2] at h
      exact Or.inl (Option.some.inj h).symm
    · rw [if_neg h2] at h
      by_cases h3 : e.dst = pid
      · rw [if_pos h3] at h
        exact Or.inr (Option.some.inj h).symm
      · rw [if_neg h3] at h; cases h
  · rw [if_neg h1] at h; cases h

/-- The child-linking fold of `open_person_form` only appends edges: it
equals an edge-list fold over the parent ids, with the persons untouched. -/
theorem foldl_merge_persons_eq (cid : String) (pids : List String)
    (g0 : Graph) (hc : (aget g0.persons cid).isSome)
    (hps : ∀ q ∈ pids, (aget g0.persons q).isSome) :
    pids.foldl (fun acc pid =>
      if (aget acc.persons cid).isSome ∧ (aget acc.persons pid).isSome then
        mergeEdge acc { src := cid, dst := pid, rel := RelType.CHILD_OF }
      else acc) g0 =
    { g0 with edges := pids.foldl (insertChildEdge cid) g0.edges } := by
  induction pids generalizing g0 with
  | nil => simp
  | cons hd tl ih =>
      have hcond : (aget g0.persons cid).isSome ∧
          (aget g0.persons hd).isSome :=
        ⟨hc, hps hd (List.mem_cons_self _ _)⟩
      simp only [List.foldl_cons, if_pos hcond]
      by_cases hm : ({ src := cid, dst := hd, rel := RelType.CHILD_OF } :
          Edge) ∈ g0.edges
      · rw [show mergeEdge g0
            { src := cid, dst := hd, rel := RelType.CHILD_OF } = g0 from by
          simp [mergeEdge, hm]]
        rw [ih g0 hc (fun q hq => hps q (List.mem_cons_of_mem _ hq))]
        simp [insertChildEdge, hm]
      · rw [show mergeEdge g0
            { src := cid, dst := hd, rel := RelType.CHILD_OF } =
            { g0 with edges := g0.edges ++
              [{ src := cid, dst := hd, rel := RelType.CHILD_OF }] } from by
          simp [mergeEdge, hm]]
        rw [ih { g0 with edges := g0.edges ++
              [{ src := cid, dst := hd, rel := RelType.CHILD_OF }] }
            hc (fun q hq => hps q (List.mem_cons_of_mem _ hq))]
        simp [insertChildEdge, hm]

/-- Folding the merge over fresh, pairwise-distinct parent ids appends one
`CHILD_OF` edge per parent. -/
theorem foldl_edge_insert (cid : String) (pids : List String)
    (es : List Edge) (hnd : pids.Nodup)
    (hnot : ∀ q ∈ pids,
      ({ src := cid, dst := q, rel := RelType.CHILD_OF } : Edge) ∉ es) :
    pids.foldl (insertChildEdge cid) es =
    es ++ pids.map
      (fun q => { src := cid, dst := q, rel := RelType.CHILD_OF }) := by
  induction pids generalizing es with
  | nil => simp
  | cons hd tl ih =>
      simp only [List.nodup_cons] at hnd
      have hnotin := hnot hd (List.mem_cons_self _ _)
      have hnot2 : ∀ q ∈ tl,
          ({ src := cid, dst := q, rel := RelType.CHILD_OF } : Edge) ∉
            es ++ [{ src := cid, dst := hd, rel := RelType.CHILD_OF }] := by
        intro q hq hm
        rcases List.mem_append.mp hm with h | h
        · exact hnot q (List.mem_cons_of_mem _ hq) h
        · have hqd : q = hd :=
            congrArg Edge.dst (List.mem_singleton.mp h)
          exact hnd.1 (hqd ▸ hq)
      simp only [List.foldl_cons]
      rw [show insertChildEdge cid es hd =
          es ++ [{ src := cid, dst := hd, rel := RelType.CHILD_OF }] from by
        simp [insertChildEdge, hnotin]]
      have hih := ih
        (es ++ [{ src := cid, dst := hd, rel := RelType.CHILD_OF }])
        hnd.2 hnot2
      rw [hih]
      simp

/-- C4: for a person `p` whose recorded spouse partners are exactly `s1`
and `s2` (all distinct, all existing), the composite add-child operation
with a fresh id creates the new Person and exactly three `CHILD_OF` edges
from it: one to `p`, one to `s1`, one to `s2`. -/
theorem addChild_two_spouses (g : Graph) (p s1 s2 newId : String)
    (formResult : PropMap)
    (hp : (aget g.persons p).isSome)
    (hsp : spousePartnerIds g p = [s1, s2])
    (h12 : s1 ≠ s2) (h1p : s1 ≠ p) (h2p : s2 ≠ p)
    (hfresh : aget g.persons newId = none)
    (hedges : ∀ e ∈ g.edges, e.src ≠ newId ∧ e.dst ≠ newId) :
    (aget (addChildComposite g p newId formResult).persons newId).isSome ∧
    (addChildComposite g p newId formResult).edges =
      g.edges ++
        [{ src := newId, dst := p, rel := RelType.CHILD_OF },
         { src := newId, dst := s1, rel := RelType.CHILD_OF },
         { src := newId, dst := s2, rel := RelType.CHILD_OF }] ∧
    childEdgesFrom (addChildComposite g p newId formResult) newId =
      [{ src := newId, dst := p, rel := RelType.CHILD_OF },
       { src := newId, dst := s1, rel := RelType.CHILD_OF },
       { src := newId, dst := s2, rel := RelType.CHILD_OF }] := by
  have hpne : p ≠ newId := by
    intro he; rw [he, hfresh] at hp; simp at hp
  have hs1mem : s1 ∈ spousePartnerIds g p := by rw [hsp]; simp
  have hs2mem : s2 ∈ spousePartnerIds g p := by rw [hsp]; simp
  have hs1ex := exists_of_mem_spousePartnerIds g p s1 hs1mem
  have hs2ex := exists_of_mem_spousePartnerIds g p s2 hs2mem
  have hs1ne : s1 ≠ newId := by
    intro he; rw [he, hfresh] at hs1ex; simp at hs1ex
  have hs2ne : s2 ≠ newId := by
    intro he; rw [he, hfresh] at hs2ex; simp at hs2ex
  have hgetNew : ∀ v0 : PropMap,
      aget (g.persons ++ [(newId, v0)]) newId = some v0 := by
    intro v0
    rw [aget_append_of_none _ _ _ hfresh]
    simp [aget]
  have hgetOther : ∀ x, x ≠ newId → ∀ v0 : PropMap,
      aget (g.persons ++ [(newId, v0)]) x = aget g.persons x :=
    fun x hx v0 => aget_append_single_ne _ _ _ _ hx
  -- the spouse query is unchanged by creating the fresh person
  have hsp1 : spousePartnerIds (createPerson g newId (formFilter formResult))
      p = [s1, s2] := by
    rw [← hsp]
    unfold spousePartnerIds
    simp only [createPerson]
    rw [hgetOther p hpne]
    by_cases hpex : (aget g.persons p).isSome
    · rw [if_pos hpex, if_pos hpex]
      apply List.filter_congr
      intro s hs
      obtain ⟨e, he, hfe⟩ := List.mem_filterMap.mp hs
      have hend := spouseCandidate_endpoint p e s hfe
      have hsne : s ≠ newId := by
        rcases hend with h | h <;> rw [h]
        · exact (hedges e he).2
        · exact (hedges e he).1
      rw [hgetOther s hsne]
    · rw [if_neg hpex, if_neg hpex]
  have hfoldp : ∀ q ∈ [p, s1, s2],
      (aget (createPerson g newId (formFilter formResult)).persons q).isSome
      := by
    intro q hq
    simp only [createPerson]
    have : q = p ∨ q = s1 ∨ q = s2 := by simpa using hq
    rcases this with h | h | h
    · rw [h, hgetOther p hpne]; exact hp
    · rw [h, hgetOther s1 hs1ne]; exact hs1ex
    · rw [h, hgetOther s2 hs2ne]; exact hs2ex
  have hcNew : (aget (createPerson g newId
      (formFilter formResult)).persons newId).isSome := by
    simp only [createPerson]
    rw [hgetNew]
    rfl
  have hndl : ([p, s1, s2] : List String).Nodup := by
    refine List.nodup_cons.mpr ⟨?_, List.nodup_cons.mpr
      ⟨?_, List.nodup_singleton _⟩⟩
    · intro hmem
      rcases List.mem_cons.mp hmem with h | h
      · exact h1p h.symm
      · exact h2p ((List.mem_singleton.mp h).symm)
    · intro hmem
      exact h12 (List.mem_singleton.mp hmem)
  have hunf : addChildComposite g p newId formResult =
      { createPerson g newId (formFilter formResult) with
        edges := g.edges ++
          [{ src := newId, dst := p, rel := RelType.CHILD_OF },
           { src := newId, dst := s1, rel := RelType.CHILD_OF },
           { src := newId, dst := s2, rel := RelType.CHILD_OF }] } := by
    show (p :: spousePartnerIds (createPerson g newId
        (formFilter formResult)) p).foldl _
          (createPerson g newId (formFilter formResult)) = _
    rw [hsp1]
    rw [foldl_merge_persons_eq newId [p, s1, s2]
      (createPerson g newId (formFilter formResult)) hcNew hfoldp]
    rw [show (createPerson g newId (formFilter formResult)).edges = g.edges
      from rfl]
    rw [foldl_edge_insert newId [p, s1, s2] g.edges hndl
      (fun q hq hm => (hedges _ hm).1 rfl)]
    simp
  refine ⟨?_, ?_, ?_⟩
  · rw [hunf]
    show (aget (g.persons ++ [(newId, _)]) newId).isSome
    rw [hgetNew]
    rfl
  · rw [hunf]
  · rw [hunf]
    unfold childEdgesFrom
    show (g.edges ++ _).filter _ = _
    rw [List.filter_append]
    have hnil : g.edges.filter
        (fun e => e.src = newId ∧ e.rel = RelType.CHILD_OF) = [] := by
      rw [List.filter_eq_nil_iff]
      intro e he
      simp [(hedges e he).1]
    rw [hnil]
    simp

/-- C4 witness: a concrete instantiation of `addChild_two_spouses`. -/
theorem addChild_two_spouses_witness :
    (aget (addChildComposite personWithTwoSpouses "p" "c1" []).persons
      "c1").isSome ∧
    (addChildComposite personWithTwoSpouses "p" "c1" []).edges =
      personWithTwoSpouses.edges ++
        [{ src := "c1", dst := "p", rel := RelType.CHILD_OF },
         { src := "c1", dst := "s1", rel := RelType.CHILD_OF },
         { src := "c1", dst := "s2", rel := RelType.CHILD_OF }] ∧
    childEdgesFrom (addChildComposite personWithTwoSpouses "p" "c1" [])
      "c1" =
      [{ src := "c1", dst := "p", rel := RelType.CHILD_OF },
       { src := "c1", dst := "s1", rel := RelType.CHILD_OF },
       { src := "c1", dst := "s2", rel := RelType.CHILD_OF }] :=
  addChild_two_spouses personWithTwoSpouses "p" "s1" "s2" "c1" []
    (by decide) (by decide) (by decide) (by decide) (by decide) (by decide)
    (by decide)

end FamilyTree
